import Mathlib

set_option maxRecDepth 100000
set_option maxHeartbeats 1000000

/-!
Verification of the text-processing / inverted-index core of the
`InformationRetrieval` repository (`engine/search_engine.py`,
class `SimpleSearchEngine`).

The Python code is shallowly embedded below.  External linguistic
resources (NLTK's stop-word list, `pos_tag` and `WordNetLemmatizer`)
are modelled as an abstract `Resources` record: `pos_tag` returns
`none` to model a raised exception (the code falls back to tagging
every token `"NN"`), and `lemmatize` returns `none` to model a raised
exception (the code falls back to the raw token).  Python string
operations are modelled character-wise (`str` is a sequence of code
points, mirrored by `List Char`).
-/

/-- Python `\w` for the ASCII range: letters, digits and underscore.
`RegexpTokenizer(r'\w+')` splits the text into maximal runs of such
characters. -/
def isWordChar (c : Char) : Bool := c.isAlphanum || c == '_'

/-- Maximal runs of word characters: the accumulator holds the current
run reversed.  `wordRunsAux cs []` is the list of `\w+` matches in `cs`. -/
def wordRunsAux : List Char → List Char → List (List Char)
  | [], acc => if acc.isEmpty then [] else [acc.reverse]
  | c :: cs, acc =>
    if isWordChar c then wordRunsAux cs (c :: acc)
    else if acc.isEmpty then wordRunsAux cs []
    else acc.reverse :: wordRunsAux cs []

/-- Python `text.lower()` (character-wise lower-casing). -/
def pyLower (s : String) : String := String.mk (s.data.map Char.toLower)

/-- Embeds `self.tokenizer.tokenize(text.lower())` with
`tokenizer = RegexpTokenizer(r'\w+')`. -/
def tokenize (s : String) : List String :=
  (wordRunsAux (pyLower s).data []).map String.mk

/-- Python `len(s)` (number of code points). -/
def pyLen (s : String) : Nat := s.data.length

/-- Python `s.startswith(p)`. -/
def pyStartsWith (s p : String) : Bool := s.data.take p.data.length == p.data

/-- Python `s.endswith(p)`. -/
def pyEndsWith (s p : String) : Bool :=
  s.data.drop (s.data.length - p.data.length) == p.data

/-- Python `s[:-n]` for `n ≤ len(s)`: drop the trailing `n` characters. -/
def pyDrop (s : String) (n : Nat) : String :=
  String.mk (s.data.take (s.data.length - n))

/-- Embeds `wordnet.ADJ`. -/
def wnADJ : String := "a"
/-- Embeds `wordnet.VERB`. -/
def wnVERB : String := "v"
/-- Embeds `wordnet.NOUN`. -/
def wnNOUN : String := "n"
/-- Embeds `wordnet.ADV`. -/
def wnADV : String := "r"

/-- The external linguistic resources used by `SimpleSearchEngine`:
`self.stop_words` (NLTK English stop words), `pos_tag` (the averaged
perceptron tagger, which tags a whole token sequence and is
context-sensitive), and `self.lemmatizer.lemmatize` (WordNet).  A `none`
result of `posTag` or `lemmatize` models a raised exception, which the
code catches. -/
structure Resources where
  stopWords : List String
  posTag : List String → Option (List (String × String))
  lemmatize : String → String → Option String

/-- Embeds `_get_wordnet_pos(treebank_tag)` from `_preprocess`. -/
def getWordnetPos (tag : String) : String :=
  if pyStartsWith tag "J" then wnADJ
  else if pyStartsWith tag "V" then wnVERB
  else if pyStartsWith tag "N" then wnNOUN
  else if pyStartsWith tag "R" then wnADV
  else wnNOUN

/-- Embeds `try: self.lemmatizer.lemmatize(token, pos=p) except Exception: token`. -/
def lemmatizeOr (R : Resources) (token pos : String) : String :=
  (R.lemmatize token pos).getD token

/-- Embeds `lemmas.add(s)`: `lemmas` is a Python set; we represent it as a
duplicate-free list in first-insertion order (the set's elements are
what matters downstream, every consumer treats the result as a set). -/
def addLemma (l : List String) (s : String) : List String :=
  if s ∈ l then l else l ++ [s]

/-- One iteration of `for token, tag in pos_tags:` in `_preprocess`:
add the raw token, the three lemma candidates, and the `-ing`/`-ed`
suffix-stripped fallbacks. -/
def lemmasFor (R : Resources) (acc : List String) (p : String × String) :
    List String :=
  let token := p.1
  let wnPos := getWordnetPos p.2
  let a1 := addLemma acc token
  let a2 := addLemma a1 (lemmatizeOr R token wnPos)
  let a3 := addLemma a2 (lemmatizeOr R token wnVERB)
  let a4 := addLemma a3 (lemmatizeOr R token wnNOUN)
  let a5 := if pyEndsWith token "ing" && decide (pyLen token > 4) then
      addLemma a4 (pyDrop token 3) else a4
  if pyEndsWith token "ed" && decide (pyLen token > 3) then
      addLemma a5 (pyDrop token 2) else a5

/-- Embeds `tokens = [t for t in tokens if t not in self.stop_words]` applied to
the tokenization of `text` (lines 28–29 of `_preprocess`). -/
def filteredTokens (R : Resources) (s : String) : List String :=
  (tokenize s).filter (fun t => !(R.stopWords.contains t))

/-- Embeds `try: pos_tags = pos_tag(tokens) except Exception: [(t, 'NN') for t in tokens]`. -/
def tagged (R : Resources) (tokens : List String) : List (String × String) :=
  match R.posTag tokens with
  | some ps => ps
  | none => tokens.map (fun t => (t, "NN"))

/-- Embeds `SimpleSearchEngine._preprocess(text)`.  The input is `none` when the
Python argument is absent, `None`, or not a string (`isinstance` guard);
`some ""` is the empty string (falsy).  The returned `list(cleaned)` of a
Python set is represented as a duplicate-free list. -/
def preprocess (R : Resources) (text : Option String) : List String :=
  match text with
  | none => []
  | some s =>
    if s = "" then []
    else
      let tokens := filteredTokens R s
      if tokens.isEmpty then []
      else
        let lemmas := (tagged R tokens).foldl (lemmasFor R) []
        lemmas.filter (fun l => !(l == "") && !(R.stopWords.contains l))

/-- Shape of the `keywords` / `subject_areas` fields of a corpus record:
a list of strings, a single string, or anything else (absent, `None`,
or an unexpected type, all of which the code maps to `''`). -/
inductive TextField where
  | absent
  | text (s : String)
  | items (ls : List String)
deriving DecidableEq

/-- The projected string for a `TextField` (the
`isinstance(list)/isinstance(str)/else` cascade in `_build_index`;
the `or []` default makes an absent or falsy field the empty join). -/
def TextField.toText : TextField → String
  | .absent => ""
  | .text s => s
  | .items ls => String.intercalate " " ls

/-- An entry of the `authors` list: a dict (from which `a.get('name','')`
is taken, the empty string when the key is missing or `None`) or a bare
string.  Entries of any other type are skipped by the code; they are not
modelled since they contribute nothing. -/
inductive Author where
  | structured (name : String)
  | bare (s : String)
deriving DecidableEq

/-- The name extracted from one `authors` entry. -/
def Author.extractedName : Author → String
  | .structured n => n
  | .bare s => s

/-- One corpus record (`self.data[doc_id]`), restricted to the fields
`_build_index` reads.  `none` for `title`/`abstract` models an absent,
`None`, or falsy field (`doc.get('title','') or ''`). -/
structure Record where
  title : Option String
  abstract : Option String
  keywords : TextField
  subject_areas : TextField
  authors : List Author
deriving DecidableEq

instance : Inhabited Record := ⟨⟨none, none, .absent, .absent, []⟩⟩

/-- Embeds `' '.join([n for n in author_names_list if n])`. -/
def authorNames (r : Record) : String :=
  String.intercalate " "
    ((r.authors.map Author.extractedName).filter (fun n => !(n == "")))

/-- The weighted text blob of `_build_index`:
`' '.join([title]*3 + [keywords]*3 + [author_names]*2 + [abstract]*2 + [subject_areas])`. -/
def project (r : Record) : String :=
  let title := r.title.getD ""
  let keywords := r.keywords.toText
  let abstract := r.abstract.getD ""
  let subject_areas := r.subject_areas.toText
  let author_names := authorNames r
  String.intercalate " "
    [title, title, title, keywords, keywords, keywords,
     author_names, author_names, abstract, abstract, subject_areas]

/-- The inverted index: a Python dict from token to posting list, as an
association list in key-insertion order (Python dicts preserve insertion
order). -/
abbrev Index := List (String × List Nat)

/-- Embeds `self.inverted_index.get(token, [])`. -/
def postings (idx : Index) (t : String) : List Nat :=
  (idx.lookup t).getD []

/-- Embeds `index[token].append(doc_id)` on a `defaultdict(list)`: append to the
token's posting list, creating the key at the end on first use. -/
def appendPosting (idx : Index) (t : String) (i : Nat) : Index :=
  match idx with
  | [] => [(t, [i])]
  | (k, v) :: rest =>
    if k = t then (k, v ++ [i]) :: rest else (k, v) :: appendPosting rest t i

/-- Embeds `for token in set(tokens): index[token].append(doc_id)`.  The Python
set of the token list is represented by `List.dedup` (its elements are
all that matter: each key gets `doc_id` appended exactly once). -/
def insertDoc (idx : Index) (i : Nat) (tokens : List String) : Index :=
  tokens.dedup.foldl (fun ix t => appendPosting ix t i) idx

/-- The normalized token list of one record's weighted projection
(`tokens = self._preprocess(weighted_text)` in `_build_index`). -/
def docTokens (R : Resources) (d : Record) : List String :=
  preprocess R (some (project d))

/-- The `for doc_id, doc in enumerate(self.data)` loop of `_build_index`,
with `n` the identifier of the first record of `ds`. -/
def buildIndexAux (R : Resources) : List Record → Nat → Index → Index
  | [], _, idx => idx
  | d :: ds, n, idx => buildIndexAux R ds (n + 1) (insertDoc idx n (docTokens R d))

/-- Embeds `SimpleSearchEngine._build_index`'s resulting `self.inverted_index`. -/
def buildIndexCore (R : Resources) (data : List Record) : Index :=
  buildIndexAux R data 0 []

/-- The engine state: `self.data`, `self.inverted_index` (`none` before
any build/load — the Unbuilt state) and the linguistic resources fixed
at construction. -/
structure Engine where
  data : List Record
  inverted_index : Option Index
  res : Resources

/-- Embeds `self._build_index()` as a state transformer. -/
def Engine.rebuild (e : Engine) : Engine :=
  { e with inverted_index := some (buildIndexCore e.res e.data) }

/-- Errors `search` can raise: the explicit
`RuntimeError("Index is not built. ...")`, and the `IndexError` Python
raises when `self.data[doc_id]` is out of range. -/
inductive SearchError where
  | notReady
  | indexError
deriving DecidableEq

/-- Embeds `[self.data[doc_id] for doc_id in sorted_ids]`: Python evaluates the
comprehension left to right and raises `IndexError` at the first
out-of-range identifier. -/
def fetchAll (data : List Record) : List Nat → Except SearchError (List Record)
  | [] => .ok []
  | i :: is =>
    match data.get? i with
    | some r =>
      match fetchAll data is with
      | .ok rs => .ok (r :: rs)
      | .error err => .error err
    | none => .error .indexError

/-- The identifier-set computation of `search`:
`matching_docs_set = set(self.inverted_index.get(query_tokens[0], []))`,
`intersection_update` with every further token's postings, then
`sorted(list(matching_docs_set))`.  The set is a duplicate-free list;
`sorted` is insertion sort (on a duplicate-free list every correct sort
returns the same, strictly increasing list Python's `sorted` does).
An empty token list yields `[]` (the code's early `return []`). -/
def queryIds (R : Resources) (idx : Index) (q : String) : List Nat :=
  match preprocess R (some q) with
  | [] => []
  | t0 :: rest =>
    let matching0 := (postings idx t0).dedup
    let matching :=
      rest.foldl (fun s t => s.filter (fun i => (postings idx t).contains i)) matching0
    List.insertionSort (· ≤ ·) matching

/-- Embeds `SimpleSearchEngine.search(query)`.  (When the query normalizes to no
tokens, `queryIds` is `[]` and `fetchAll` returns `Except.ok []`, which is
the code's early `return []`.) -/
def Engine.search (e : Engine) (q : String) : Except SearchError (List Record) :=
  match e.inverted_index with
  | none => .error .notReady
  | some idx => fetchAll e.data (queryIds e.res idx q)

/-- A small, well-behaved resource instance: a three-word stop list, a
tagger that tags every token `"NN"` independent of context, and a
lemmatizer that always fails (so every lemma candidate degrades to the
raw token). -/
def R0 : Resources :=
  { stopWords := ["the", "and", "of"]
    posTag := fun ts => some (ts.map (fun t => (t, "NN")))
    lemmatize := fun _ _ => none }

/-- A record whose projection tokenizes to `tax`, `policy` (plus
stemming variants). -/
def recA : Record :=
  { title := some "Tax Policy"
    abstract := some "a study of tax"
    keywords := .items ["policy"]
    subject_areas := .absent
    authors := [.structured "A. Smith"] }

/-- An engine whose index was built from its own (current) corpus. -/
def EW : Engine :=
  { data := [recA]
    inverted_index := some (buildIndexCore R0 [recA])
    res := R0 }

/-- An engine in the Unbuilt state. -/
def EU : Engine := { data := [recA], inverted_index := none, res := R0 }

/-- An engine whose index was NOT built from the current corpus: it
mimics `build()` having loaded `{"tax": [5]}` from a persisted file
while the current corpus has a single record. -/
def Ebad : Engine :=
  { data := [recA], inverted_index := some [("tax", [5])], res := R0 }

/-- A context-sensitive tagger/lemmatizer instance, of the kind NLTK's
averaged perceptron tagger actually is (its features include the
neighbouring words, so the tag of a token depends on the order of the
query tokens): the token `"b"` is tagged as an adjective when it comes
first in the two-token sequence `["b", "a"]` and as a noun otherwise,
and its adjective lemma (`"c"`) differs from its noun/verb forms. -/
def Rcex : Resources :=
  { stopWords := []
    posTag := fun ts =>
      if ts = ["b", "a"] then some [("b", "JJ"), ("a", "NN")]
      else some (ts.map (fun t => (t, "NN")))
    lemmatize := fun t pos =>
      if t = "b" && pos = wnADJ then some "c" else none }

/-- A record whose projection tokenizes to runs of `a b` (so its token
sequence is never the two-token `["b", "a"]`, and it gets indexed under
`a` and `b` only). -/
def recX : Record :=
  { title := some "a b", abstract := none, keywords := .absent
    subject_areas := .absent, authors := [] }

/-- An engine over `Rcex` whose index was built from its own corpus. -/
def Ecex : Engine :=
  { data := [recX]
    inverted_index := some (buildIndexCore Rcex [recX])
    res := Rcex }

/-- One posting array rendered as `json.dump` with `indent=4` renders a
list of integers nested one level deep. -/
def renderIds (ids : List Nat) : String :=
  match ids with
  | [] => "[]"
  | _ =>
    "[\n" ++ String.intercalate ",\n" (ids.map (fun i => "            " ++ toString i))
      ++ "\n        ]"

/-- One `"token": [ids]` entry of the serialized index.  Tokens are `\w+`
runs, so they contain no character JSON needs to escape. -/
def renderEntry (p : String × List Nat) : String :=
  "    \x22" ++ p.1 ++ "\x22: " ++ renderIds p.2

/-- Embeds `json.dump(self.inverted_index, f, indent=4)`: the serialized bytes
of the index, entries in dict insertion order. -/
def serializeIndex (idx : Index) : String :=
  match idx with
  | [] => "\x7b\x7d"
  | _ => "\x7b\n" ++ String.intercalate ",\n" (idx.map renderEntry) ++ "\n\x7d"

/-- JSON values, the interchange type of the persisted index file.

Modelled from the spec: the Index Store persists the index "as a
token→identifier-list mapping in a stable textual serialization"
(§4.4), concretely "a JSON object whose keys are tokens and whose
values are arrays of non-negative integers" (§6).  The textual layer is
Python's `json` module (`json.dump`/`json.load`), an external library
that round-trips JSON values; the store is therefore modelled at the
JSON-value level. -/
inductive Json where
  | null
  | bool (b : Bool)
  | num (n : Int)
  | str (s : String)
  | arr (xs : List Json)
  | obj (fields : List (String × Json))

/-- Embeds `save`: the JSON value `json.dump` writes for the index. -/
def encodeIndex (idx : Index) : Json :=
  .obj (idx.map (fun p => (p.1, .arr (p.2.map (fun i => .num (Int.ofNat i))))))

/-- One identifier read back from the file (a non-negative integer). -/
def decodeId : Json → Option Nat
  | .num n => if 0 ≤ n then some n.toNat else none
  | _ => none

/-- One posting array read back from the file. -/
def decodeIds : List Json → Option (List Nat)
  | [] => some []
  | j :: js =>
    match decodeId j, decodeIds js with
    | some n, some ns => some (n :: ns)
    | _, _ => none

/-- The entries of the read-back JSON object, in file order. -/
def decodeEntries : List (String × Json) → Option Index
  | [] => some []
  | (k, v) :: fs =>
    match v with
    | .arr xs =>
      match decodeIds xs, decodeEntries fs with
      | some ids, some rest => some ((k, ids) :: rest)
      | _, _ => none
    | _ => none

/-- Embeds `load`: `json.load` of the persisted file interpreted as an index
(`none` when the value is not an object of integer arrays). -/
def decodeIndex : Json → Option Index
  | .obj fs => decodeEntries fs
  | _ => none

/-- Resources for `_preprocess` in which every linguistic-resource call raises. -/
def failAll (R : Resources) : Resources :=
  { R with posTag := fun _ => none, lemmatize := fun _ _ => none }

/-- Resources making `_preprocess`'s fallback behavior explicit: every token is
tagged `"NN"` and every lemma is the raw token. -/
def rawOnly (R : Resources) : Resources :=
  { R with posTag := fun ts => some (ts.map (fun t => (t, "NN")))
           lemmatize := fun t _ => some t }

/-- Specification device (not from the source): the identifiers, starting
at `n`, of the records of `ds` whose normalized projection contains the
token `k`.  `buildIndexAux` is proved to produce exactly these posting
lists. -/
def docsWith (R : Resources) : List Record → Nat → String → List Nat
  | [], _, _ => []
  | d :: ds, n, k =>
    (if k ∈ docTokens R d then [n] else []) ++ docsWith R ds (n + 1) k

/-! ### Concrete evaluations of the embedding

These kernel-checked evaluations exercise the executable embedding on
small inputs: tokenization, normalization, index building, and the four
observable outcomes of `search` (hit, conjunctive miss, stop-word-only
query, and the Unbuilt state). -/

theorem eval_tokenize : tokenize "Hello, world_1!" = ["hello", "world_1"] := rfl

theorem eval_preprocess :
    preprocess ⟨["the"], fun ts => some (ts.map (fun t => (t, "NN"))),
      fun _ _ => none⟩ (some "the walking dead") =
    ["walking", "walk", "dead"] := rfl

theorem eval_buildIndex :
    buildIndexCore R0 [recA] =
    [("tax", [0]), ("policy", [0]), ("a", [0]),
     ("smith", [0]), ("study", [0])] := rfl

theorem eval_search_hit : Engine.search EW "Tax, policy!" = .ok [recA] := rfl

theorem eval_search_conjunctive_miss :
    Engine.search EW "tax banana" = .ok [] := rfl

theorem eval_search_stopwords : Engine.search EW "the and" = .ok [] := rfl

theorem eval_search_unbuilt :
    Engine.search EU "tax" = .error .notReady := rfl

/-! ### Lemmas about the lemma-set accumulation of `_preprocess` -/

theorem mem_addLemma_self (l : List String) (s : String) : s ∈ addLemma l s := by
  unfold addLemma
  split
  · assumption
  · simp

theorem mem_addLemma_of_mem {l : List String} {a : String} (h : a ∈ l)
    (s : String) : a ∈ addLemma l s := by
  unfold addLemma
  split
  · exact h
  · simp [h]

theorem mem_ite_addLemma {l : List String} {a : String} (h : a ∈ l)
    (c : Bool) (s : String) : a ∈ (if c then addLemma l s else l) := by
  split
  · exact mem_addLemma_of_mem h s
  · exact h

theorem lemmasFor_mono (R : Resources) (p : String × String)
    {acc : List String} {a : String} (h : a ∈ acc) : a ∈ lemmasFor R acc p := by
  dsimp only [lemmasFor]
  exact mem_ite_addLemma (mem_ite_addLemma
    (mem_addLemma_of_mem (mem_addLemma_of_mem (mem_addLemma_of_mem
      (mem_addLemma_of_mem h _) _) _) _) _ _) _ _

theorem token_mem_lemmasFor (R : Resources) (acc : List String)
    (p : String × String) : p.1 ∈ lemmasFor R acc p := by
  dsimp only [lemmasFor]
  exact mem_ite_addLemma (mem_ite_addLemma
    (mem_addLemma_of_mem (mem_addLemma_of_mem (mem_addLemma_of_mem
      (mem_addLemma_self acc p.1) _) _) _) _ _) _ _

theorem ing_mem_lemmasFor (R : Resources) (acc : List String)
    (p : String × String) (h1 : pyEndsWith p.1 "ing" = true)
    (h2 : pyLen p.1 > 4) : pyDrop p.1 3 ∈ lemmasFor R acc p := by
  dsimp only [lemmasFor]
  rw [h1, decide_eq_true h2]
  exact mem_ite_addLemma (mem_addLemma_self _ _) _ _

theorem ed_mem_lemmasFor (R : Resources) (acc : List String)
    (p : String × String) (h1 : pyEndsWith p.1 "ed" = true)
    (h2 : pyLen p.1 > 3) : pyDrop p.1 2 ∈ lemmasFor R acc p := by
  dsimp only [lemmasFor]
  rw [h1, decide_eq_true h2]
  simp only [Bool.true_and]
  exact mem_addLemma_self _ _

theorem mem_foldl_lemmasFor_of_mem (R : Resources)
    (ps : List (String × String)) {acc : List String} {a : String}
    (h : a ∈ acc) : a ∈ ps.foldl (lemmasFor R) acc := by
  induction ps generalizing acc with
  | nil => exact h
  | cons q qs ih => exact ih (lemmasFor_mono R q h)

theorem mem_foldl_lemmasFor (R : Resources) {ps : List (String × String)}
    {p : String × String} (hp : p ∈ ps) {x : String}
    (hx : ∀ acc, x ∈ lemmasFor R acc p) (acc : List String) :
    x ∈ ps.foldl (lemmasFor R) acc := by
  induction ps generalizing acc with
  | nil => cases hp
  | cons q qs ih =>
    rcases List.mem_cons.mp hp with h | h
    · subst h
      exact mem_foldl_lemmasFor_of_mem R qs (hx acc)
    · exact ih h _

/-! ### Lemmas about `_preprocess` as a whole -/

theorem preprocess_none (R : Resources) : preprocess R none = [] := rfl

theorem preprocess_empty (R : Resources) : preprocess R (some "") = [] := rfl

theorem not_stop_of_mem_preprocess {R : Resources} {s : Option String}
    {t : String} (h : t ∈ preprocess R s) :
    R.stopWords.contains t = false ∧ t ≠ "" := by
  cases s with
  | none => cases h
  | some str =>
    simp only [preprocess] at h
    split at h
    · cases h
    · split at h
      · cases h
      · have hf := List.of_mem_filter h
        simp only [Bool.and_eq_true, Bool.not_eq_true', beq_iff_eq,
          beq_eq_false_iff_ne, ne_eq] at hf
        exact ⟨hf.2, hf.1⟩

theorem mem_preprocess_iff_of_ne {R : Resources} {s : String} {t : String}
    (hs : s ≠ "") (hne : ¬(filteredTokens R s).isEmpty = true) :
    t ∈ preprocess R (some s) ↔
      t ∈ ((tagged R (filteredTokens R s)).foldl (lemmasFor R) []).filter
        (fun l => !(l == "") && !(R.stopWords.contains l)) := by
  simp only [preprocess]
  rw [if_neg hs, if_neg hne]

theorem lemmasFor_failAll_eq (R : Resources) :
    lemmasFor (failAll R) = lemmasFor (rawOnly R) := by
  funext acc p
  simp [lemmasFor, lemmatizeOr, failAll, rawOnly]

theorem tagged_failAll_eq (R : Resources) (ts : List String) :
    tagged (failAll R) ts = tagged (rawOnly R) ts := rfl

/-! ### Lemmas about the tokenizer -/

theorem ne_nil_of_mem_wordRunsAux {cs : List Char} :
    ∀ {acc r : List Char}, r ∈ wordRunsAux cs acc → r ≠ [] := by
  induction cs with
  | nil =>
    intro acc r h
    unfold wordRunsAux at h
    split at h
    · cases h
    · rename_i hne
      rw [List.mem_singleton] at h
      subst h
      simpa [List.isEmpty_iff] using hne
  | cons c cs ih =>
    intro acc r h
    unfold wordRunsAux at h
    split at h
    · exact ih h
    · split at h
      · exact ih h
      · rename_i hne
        rcases List.mem_cons.mp h with h1 | h1
        · subst h1
          simpa [List.isEmpty_iff] using hne
        · exact ih h1

theorem ne_empty_of_mem_tokenize {s t : String} (h : t ∈ tokenize s) :
    t ≠ "" := by
  unfold tokenize at h
  rcases List.mem_map.mp h with ⟨r, hr, rfl⟩
  intro hc
  exact ne_nil_of_mem_wordRunsAux hr (congrArg String.data hc)

theorem mem_tokenize_of_mem_filteredTokens {R : Resources} {s t : String}
    (h : t ∈ filteredTokens R s) :
    t ∈ tokenize s ∧ R.stopWords.contains t = false := by
  have := List.mem_filter.mp h
  simpa using this

/-- Python `token[:-n]` of a token longer than `n` characters is a
nonempty string. -/
theorem pyDrop_ne_empty {t : String} {n : Nat} (h : n < pyLen t) :
    pyDrop t n ≠ "" := by
  unfold pyLen at h
  intro hc
  have h2 : t.data.take (t.data.length - n) = [] := congrArg String.data hc
  rw [List.take_eq_nil_iff] at h2
  rcases h2 with h2 | h2
  · omega
  · rw [h2] at h
    simp at h

theorem preprocess_failAll_eq (R : Resources) (s : Option String) :
    preprocess (failAll R) s = preprocess (rawOnly R) s := by
  unfold preprocess
  match s with
  | none => rfl
  | some str =>
    have h1 : filteredTokens (failAll R) str = filteredTokens (rawOnly R) str := rfl
    have h2 : (failAll R).stopWords = (rawOnly R).stopWords := rfl
    simp only [h1, h2, tagged_failAll_eq, lemmasFor_failAll_eq]

/-! ### Lemmas about the index builder -/

theorem lookup_appendPosting (idx : Index) (t : String) (i : Nat) (k : String) :
    (appendPosting idx t i).lookup k =
      if k = t then some ((postings idx k) ++ [i]) else idx.lookup k := by
  induction idx with
  | nil =>
    by_cases hk : k = t
    · subst hk
      simp [appendPosting, List.lookup, postings]
    · simp [appendPosting, List.lookup, hk, postings, beq_false_of_ne hk]
  | cons p rest ih =>
    obtain ⟨k0, v0⟩ := p
    unfold appendPosting
    by_cases h0 : k0 = t
    · subst h0
      rw [if_pos rfl]
      by_cases hk : k = k0
      · subst hk
        simp [List.lookup, postings]
      · simp [List.lookup, beq_false_of_ne hk, hk]
    · rw [if_neg h0]
      by_cases hk : k = k0
      · subst hk
        have hkt : k ≠ t := h0
        simp [List.lookup, if_neg hkt]
      · have hpk : postings ((k0, v0) :: rest) k = postings rest k := by
          simp [postings, List.lookup, beq_false_of_ne hk]
        simp only [List.lookup, beq_false_of_ne hk]
        rw [ih, hpk]

theorem lookup_foldl_appendPosting {ts : List String} (hnd : ts.Nodup)
    (idx : Index) (n : Nat) (k : String) :
    (ts.foldl (fun ix t => appendPosting ix t n) idx).lookup k =
      if k ∈ ts then some ((postings idx k) ++ [n]) else idx.lookup k := by
  induction ts generalizing idx with
  | nil => simp
  | cons t ts ih =>
    obtain ⟨hnotmem, hnd'⟩ := List.nodup_cons.mp hnd
    rw [List.foldl_cons, ih hnd']
    by_cases hk : k ∈ ts
    · rw [if_pos hk, if_pos (List.mem_cons_of_mem _ hk)]
      have hkt : k ≠ t := fun hh => hnotmem (hh ▸ hk)
      rw [postings, lookup_appendPosting, if_neg hkt]
      rfl
    · rw [if_neg hk]
      by_cases hkt : k = t
      · subst hkt
        rw [lookup_appendPosting, if_pos rfl, if_pos (List.mem_cons_self k ts)]
      · rw [lookup_appendPosting, if_neg hkt,
          if_neg (by simp [hkt, hk] : ¬k ∈ t :: ts)]

theorem lookup_insertDoc (idx : Index) (n : Nat) (ts : List String)
    (k : String) :
    (insertDoc idx n ts).lookup k =
      if k ∈ ts then some ((postings idx k) ++ [n]) else idx.lookup k := by
  unfold insertDoc
  rw [lookup_foldl_appendPosting (List.nodup_dedup ts)]
  simp only [List.mem_dedup]

theorem docsWith_nil (R : Resources) (n : Nat) (k : String) :
    docsWith R [] n k = [] := rfl

theorem docsWith_cons (R : Resources) (d : Record) (ds : List Record)
    (n : Nat) (k : String) :
    docsWith R (d :: ds) n k =
      (if k ∈ docTokens R d then [n] else []) ++ docsWith R ds (n + 1) k := rfl

theorem buildIndexAux_nil (R : Resources) (n : Nat) (idx : Index) :
    buildIndexAux R [] n idx = idx := rfl

theorem buildIndexAux_cons (R : Resources) (d : Record) (ds : List Record)
    (n : Nat) (idx : Index) :
    buildIndexAux R (d :: ds) n idx =
      buildIndexAux R ds (n + 1) (insertDoc idx n (docTokens R d)) := rfl

theorem postings_buildIndexAux (R : Resources) (ds : List Record) :
    ∀ (n : Nat) (idx : Index) (k : String),
    postings (buildIndexAux R ds n idx) k = postings idx k ++ docsWith R ds n k := by
  induction ds with
  | nil =>
    intro n idx k
    simp [buildIndexAux_nil, docsWith_nil]
  | cons d ds ih =>
    intro n idx k
    rw [buildIndexAux_cons, docsWith_cons, ih]
    by_cases hk : k ∈ docTokens R d
    · rw [if_pos hk]
      have : postings (insertDoc idx n (docTokens R d)) k = postings idx k ++ [n] := by
        rw [postings, lookup_insertDoc, if_pos hk]
        rfl
      rw [this, List.append_assoc]
    · rw [if_neg hk]
      have : postings (insertDoc idx n (docTokens R d)) k = postings idx k := by
        rw [postings, lookup_insertDoc, if_neg hk]
        rfl
      rw [this]
      rfl

theorem postings_buildIndexCore (R : Resources) (data : List Record)
    (k : String) :
    postings (buildIndexCore R data) k = docsWith R data 0 k := by
  unfold buildIndexCore
  rw [postings_buildIndexAux]
  rfl

theorem lookup_buildIndexCore_eq_docsWith {R : Resources}
    {data : List Record} {k : String} {ids : List Nat}
    (h : (buildIndexCore R data).lookup k = some ids) :
    ids = docsWith R data 0 k := by
  have := postings_buildIndexCore R data k
  rw [postings, h] at this
  exact this

theorem mem_docsWith {R : Resources} {ds : List Record} :
    ∀ {n : Nat} {k : String} {i : Nat},
    i ∈ docsWith R ds n k ↔
      ∃ j, ∃ hj : j < ds.length, i = n + j ∧ k ∈ docTokens R (ds.get ⟨j, hj⟩) := by
  induction ds with
  | nil => simp [docsWith_nil]
  | cons d ds ih =>
    intro n k i
    rw [docsWith_cons, List.mem_append, ih]
    constructor
    · rintro (h | ⟨j, hj, rfl, hk⟩)
      · by_cases hk : k ∈ docTokens R d
        · rw [if_pos hk, List.mem_singleton] at h
          exact ⟨0, by simp, by omega, by simpa using hk⟩
        · rw [if_neg hk] at h
          cases h
      · exact ⟨j + 1, by simpa using hj, by omega, by simpa using hk⟩
    · rintro ⟨j, hj, rfl, hk⟩
      cases j with
      | zero =>
        left
        simp only [List.get] at hk
        rw [if_pos hk]
        simp
      | succ j =>
        right
        exact ⟨j, by simpa using hj, by omega, by simpa using hk⟩

theorem sorted_docsWith (R : Resources) (ds : List Record) :
    ∀ (n : Nat) (k : String),
    List.Sorted (· < ·) (docsWith R ds n k) ∧
      ∀ i ∈ docsWith R ds n k, n ≤ i := by
  induction ds with
  | nil => intro n k; simp [docsWith_nil]
  | cons d ds ih =>
    intro n k
    obtain ⟨hs, hb⟩ := ih (n + 1) k
    rw [docsWith_cons]
    by_cases hk : k ∈ docTokens R d
    · rw [if_pos hk]
      refine ⟨?_, ?_⟩
      · rw [List.singleton_append, List.sorted_cons]
        exact ⟨fun b hbm => by have := hb b hbm; omega, hs⟩
      · intro i hi
        rcases List.mem_cons.mp hi with h | h
        · omega
        · have := hb i h; omega
    · rw [if_neg hk, List.nil_append]
      exact ⟨hs, fun i hi => by have := hb i hi; omega⟩

/-! ### Lemmas about `search` -/

theorem fetchAll_cons (data : List Record) (i : Nat) (is : List Nat) :
    fetchAll data (i :: is) =
      match data.get? i with
      | some r =>
        match fetchAll data is with
        | .ok rs => .ok (r :: rs)
        | .error err => .error err
      | none => .error .indexError := rfl

theorem fetchAll_nil (data : List Record) :
    fetchAll data [] = .ok [] := rfl

theorem fetchAll_ok_of_bounded {data : List Record} {l : List Nat}
    (h : ∀ i ∈ l, i < data.length) :
    fetchAll data l = .ok (l.filterMap (fun i => data.get? i)) := by
  induction l with
  | nil => rfl
  | cons i is ih =>
    have hi : i < data.length := h i (List.mem_cons_self i is)
    obtain ⟨r, hr⟩ : ∃ r, data.get? i = some r :=
      ⟨data.get ⟨i, hi⟩, List.get?_eq_get hi⟩
    rw [fetchAll_cons, hr, ih (fun j hj => h j (List.mem_cons_of_mem i hj)),
      List.filterMap_cons, hr]

theorem fetchAll_ok_elim {data : List Record} {l : List Nat}
    {rs : List Record} (h : fetchAll data l = .ok rs) :
    (∀ i ∈ l, i < data.length) ∧ rs = l.filterMap (fun i => data.get? i) := by
  induction l generalizing rs with
  | nil =>
    rw [fetchAll_nil] at h
    injection h with h2
    exact ⟨by simp, by rw [← h2]; rfl⟩
  | cons i is ih =>
    rw [fetchAll_cons] at h
    cases hg : data.get? i with
    | none => rw [hg] at h; cases h
    | some r =>
      rw [hg] at h
      cases hf : fetchAll data is with
      | error err => rw [hf] at h; cases h
      | ok rs' =>
        rw [hf] at h
        obtain ⟨hb, hrs⟩ := ih hf
        injection h with h2
        refine ⟨?_, ?_⟩
        · intro j hj
          rcases List.mem_cons.mp hj with rfl | hj'
          · exact (List.get?_eq_some.mp hg).1
          · exact hb j hj'
        · rw [← h2, hrs, List.filterMap_cons, hg]

theorem fetchAll_error_elim {data : List Record} {l : List Nat}
    {err : SearchError} (h : fetchAll data l = .error err) :
    err = .indexError := by
  induction l generalizing err with
  | nil => cases h
  | cons i is ih =>
    rw [fetchAll_cons] at h
    cases hg : data.get? i with
    | none =>
      rw [hg] at h
      injection h with h2
      exact h2.symm
    | some r =>
      rw [hg] at h
      cases hf : fetchAll data is with
      | error e' =>
        rw [hf] at h
        injection h with h2
        rw [← h2]
        exact ih hf
      | ok rs' => rw [hf] at h; cases h

theorem mem_filterInter {idx : Index} {ts : List String} :
    ∀ {s0 : List Nat} {i : Nat},
    (i ∈ ts.foldl (fun s t => s.filter (fun j => (postings idx t).contains j)) s0) ↔
      i ∈ s0 ∧ ∀ t ∈ ts, i ∈ postings idx t := by
  induction ts with
  | nil => simp
  | cons t ts ih =>
    intro s0 i
    rw [List.foldl_cons, ih, List.mem_filter]
    constructor
    · rintro ⟨⟨hs0, hc⟩, hall⟩
      refine ⟨hs0, fun u hu => ?_⟩
      rcases List.mem_cons.mp hu with rfl | hu'
      · exact List.elem_iff.mp hc
      · exact hall u hu'
    · rintro ⟨hs0, hall⟩
      exact ⟨⟨hs0, List.elem_iff.mpr (hall t (List.mem_cons_self t ts))⟩,
        fun u hu => hall u (List.mem_cons_of_mem t hu)⟩

theorem nodup_filterInter {idx : Index} {ts : List String} :
    ∀ {s0 : List Nat}, s0.Nodup →
    (ts.foldl (fun s t => s.filter (fun j => (postings idx t).contains j)) s0).Nodup := by
  induction ts with
  | nil => exact fun h => h
  | cons t ts ih =>
    intro s0 h
    exact ih (h.filter _)

theorem queryIds_nil_of_empty {R : Resources} {idx : Index} {q : String}
    (h : preprocess R (some q) = []) : queryIds R idx q = [] := by
  simp [queryIds, h]

theorem queryIds_eq_sort {R : Resources} {idx : Index} {q : String}
    {t0 : String} {rest : List String}
    (h : preprocess R (some q) = t0 :: rest) :
    queryIds R idx q = List.insertionSort (· ≤ ·)
      (rest.foldl (fun s t => s.filter (fun j => (postings idx t).contains j))
        (postings idx t0).dedup) := by
  simp only [queryIds, h]

theorem mem_queryIds {R : Resources} {idx : Index} {q : String} {i : Nat} :
    i ∈ queryIds R idx q ↔
      preprocess R (some q) ≠ [] ∧
        ∀ t ∈ preprocess R (some q), i ∈ postings idx t := by
  cases hq : preprocess R (some q) with
  | nil => simp [queryIds_nil_of_empty hq]
  | cons t0 rest =>
    rw [queryIds_eq_sort hq, List.Perm.mem_iff (List.perm_insertionSort _ _),
      mem_filterInter, List.mem_dedup]
    simp [List.forall_mem_cons, and_assoc]

theorem sorted_le_queryIds (R : Resources) (idx : Index) (q : String) :
    List.Sorted (· ≤ ·) (queryIds R idx q) := by
  cases hq : preprocess R (some q) with
  | nil => rw [queryIds_nil_of_empty hq]; exact List.sorted_nil
  | cons t0 rest =>
    rw [queryIds_eq_sort hq]
    exact List.sorted_insertionSort _ _

theorem nodup_queryIds (R : Resources) (idx : Index) (q : String) :
    (queryIds R idx q).Nodup := by
  cases hq : preprocess R (some q) with
  | nil => rw [queryIds_nil_of_empty hq]; exact List.nodup_nil
  | cons t0 rest =>
    rw [queryIds_eq_sort hq]
    exact ((List.perm_insertionSort _ _).symm).nodup
      (nodup_filterInter (List.nodup_dedup _))

theorem sorted_lt_queryIds (R : Resources) (idx : Index) (q : String) :
    List.Sorted (· < ·) (queryIds R idx q) :=
  (sorted_le_queryIds R idx q).lt_of_le (nodup_queryIds R idx q)

theorem search_eq_fetchAll {e : Engine} {idx : Index}
    (h : e.inverted_index = some idx) (q : String) :
    e.search q = fetchAll e.data (queryIds e.res idx q) := by
  unfold Engine.search
  rw [h]

theorem queryIds_ext {R : Resources} {idx : Index} {q1 q2 : String}
    (h : ∀ t, t ∈ preprocess R (some q1) ↔ t ∈ preprocess R (some q2)) :
    queryIds R idx q1 = queryIds R idx q2 := by
  have hnil : preprocess R (some q1) = [] ↔ preprocess R (some q2) = [] := by
    rw [List.eq_nil_iff_forall_not_mem, List.eq_nil_iff_forall_not_mem]
    exact ⟨fun h1 t ht => h1 t ((h t).mpr ht), fun h2 t ht => h2 t ((h t).mp ht)⟩
  have hmem : ∀ i, i ∈ queryIds R idx q1 ↔ i ∈ queryIds R idx q2 := by
    intro i
    rw [mem_queryIds, mem_queryIds]
    constructor
    · rintro ⟨hne, hall⟩
      exact ⟨fun hc => hne (hnil.mpr hc),
        fun t ht => hall t ((h t).mpr ht)⟩
    · rintro ⟨hne, hall⟩
      exact ⟨fun hc => hne (hnil.mp hc),
        fun t ht => hall t ((h t).mp ht)⟩
  exact List.eq_of_perm_of_sorted
    ((List.perm_ext_iff_of_nodup (nodup_queryIds R idx q1)
      (nodup_queryIds R idx q2)).mpr hmem)
    (sorted_le_queryIds R idx q1) (sorted_le_queryIds R idx q2)

theorem search_ok_of_bounded {e : Engine} {idx : Index}
    (hidx : e.inverted_index = some idx)
    (hb : ∀ t, ∀ i ∈ postings idx t, i < e.data.length) (q : String) :
    e.search q =
      .ok ((queryIds e.res idx q).filterMap (fun i => e.data.get? i)) := by
  rw [search_eq_fetchAll hidx]
  apply fetchAll_ok_of_bounded
  intro i hi
  obtain ⟨hne, hall⟩ := mem_queryIds.mp hi
  obtain ⟨t0, ht0⟩ := List.exists_mem_of_ne_nil _ hne
  exact hb t0 i (hall t0 ht0)

/-! ### Support for the raw-token / stemming-variant properties -/

theorem map_fst_tagged {R : Resources}
    (hwf : ∀ ts ps, R.posTag ts = some ps → ps.map Prod.fst = ts)
    (tokens : List String) : (tagged R tokens).map Prod.fst = tokens := by
  have hid : (Prod.fst ∘ fun t : String => (t, "NN")) = id := rfl
  cases hpt : R.posTag tokens with
  | none =>
    simp only [tagged, hpt, List.map_map, hid, List.map_id]
  | some ps =>
    simp only [tagged, hpt]
    exact hwf tokens ps hpt

theorem R0_posTag_wf :
    ∀ ts ps, R0.posTag ts = some ps → ps.map Prod.fst = ts := by
  intro ts ps h
  injection h with h2
  rw [← h2, List.map_map]
  exact List.map_id ts

/-- If some surviving token `token` contributes `x` to the lemma set
whatever the accumulator (and `x` passes the final filter), then `x` is
in the output of `_preprocess`. -/
theorem mem_preprocess_via_pair {R : Resources}
    (hwf : ∀ ts ps, R.posTag ts = some ps → ps.map Prod.fst = ts)
    {s token x : String} (htok : token ∈ filteredTokens R s)
    (hadd : ∀ acc (p : String × String), p.1 = token → x ∈ lemmasFor R acc p)
    (hx1 : x ≠ "") (hx2 : R.stopWords.contains x = false) :
    x ∈ preprocess R (some s) := by
  have hsne : s ≠ "" := by
    intro hc
    subst hc
    cases htok
  have hempty : ¬(filteredTokens R s).isEmpty = true := by
    intro hc
    rw [List.isEmpty_iff] at hc
    rw [hc] at htok
    cases htok
  rw [mem_preprocess_iff_of_ne hsne hempty]
  apply List.mem_filter.mpr
  refine ⟨?_, ?_⟩
  · have hmt : token ∈ (tagged R (filteredTokens R s)).map Prod.fst := by
      rw [map_fst_tagged hwf]
      exact htok
    obtain ⟨p, hp, hfst⟩ := List.mem_map.mp hmt
    exact mem_foldl_lemmasFor R hp (fun acc => hadd acc p hfst) []
  · rw [hx2]
    simp [hx1]

/-! ### Claim theorems -/

/-- C4: a document identifier `i` is in the posting list of token `t` of
the built index if and only if `t` is in the normalized token set of the
document's weighted projection (title ×3, keywords ×3, author names ×2,
abstract ×2, subject areas ×1).  Membership is pure set membership: the
repetition weighting of `project` cannot influence it, since the index
stores identifiers, not occurrence counts. -/
theorem mem_postings_iff_token_mem (R : Resources) (data : List Record)
    (i : Nat) (t : String) :
    i ∈ postings (buildIndexCore R data) t ↔
      ∃ h : i < data.length,
        t ∈ preprocess R (some (project (data.get ⟨i, h⟩))) := by
  rw [postings_buildIndexCore, mem_docsWith]
  constructor
  · rintro ⟨j, hj, rfl, hk⟩
    refine ⟨by simpa using hj, ?_⟩
    simpa [docTokens] using hk
  · rintro ⟨h, ht⟩
    refine ⟨i, by simpa using h, by omega, ?_⟩
    simpa [docTokens] using ht

/-- C5: in an index built from a corpus, every token's posting list is
duplicate-free and strictly increasing (records are visited in corpus
order and each identifier is appended at most once per token). -/
theorem postings_nodup_sorted (R : Resources) (data : List Record)
    (t : String) (ids : List Nat)
    (h : (buildIndexCore R data).lookup t = some ids) :
    ids.Nodup ∧ List.Sorted (· < ·) ids := by
  have hd := lookup_buildIndexCore_eq_docsWith h
  subst hd
  have hs := (sorted_docsWith R data 0 t).1
  exact ⟨hs.imp (fun hlt => Nat.ne_of_lt hlt), hs⟩

/-- Witness for C5 at a concrete corpus. -/
theorem postings_nodup_sorted_witness :
    (buildIndexCore R0 [recA]).lookup "tax" = some [0] ∧
      ([0] : List Nat).Nodup ∧ List.Sorted (· < ·) [0] :=
  ⟨rfl, postings_nodup_sorted R0 [recA] "tax" [0] rfl⟩

/-- C10: when the in-memory index was built from the engine's current
corpus, every identifier in every posting list is strictly below the
corpus length, and `search` therefore cannot fail while mapping
identifiers to records: it returns `Except.ok` for every query.  (For an
index loaded from storage no such bound holds; see the C3
counterexample.) -/
theorem built_index_bounded_search_ok (e : Engine)
    (hbuilt : e.inverted_index = some (buildIndexCore e.res e.data))
    (q : String) :
    (∀ t, ∀ i ∈ postings (buildIndexCore e.res e.data) t, i < e.data.length) ∧
      ∃ rs, e.search q = .ok rs := by
  have hb : ∀ t, ∀ i ∈ postings (buildIndexCore e.res e.data) t,
      i < e.data.length := by
    intro t i hi
    rw [postings_buildIndexCore, mem_docsWith] at hi
    obtain ⟨j, hj, rfl, -⟩ := hi
    omega
  exact ⟨hb, ⟨_, search_ok_of_bounded hbuilt hb q⟩⟩

/-- Witness for C10 at a concrete engine whose index is built from its
own corpus. -/
theorem built_index_bounded_search_ok_witness :
    EW.inverted_index = some (buildIndexCore EW.res EW.data) ∧
      ∃ rs, EW.search "tax" = .ok rs :=
  ⟨rfl, (built_index_bounded_search_ok EW rfl "tax").2⟩

/-- C2: whenever `search` succeeds, the returned records are the corpus
records at a strictly increasing, duplicate-free list of in-bounds
identifiers — i.e. sorted by ascending original corpus identifier, each
corpus record appearing at most once, for every query and every stored
index (whatever the internal order of its posting lists). -/
theorem search_sorted_ascending (e : Engine) (q : String) (rs : List Record)
    (h : e.search q = .ok rs) :
    ∃ ids : List Nat, List.Sorted (· < ·) ids ∧ ids.Nodup ∧
      (∀ i ∈ ids, i < e.data.length) ∧
      rs = ids.filterMap (fun i => e.data.get? i) := by
  cases hidx : e.inverted_index with
  | none =>
    have hs : e.search q = .error .notReady := by
      unfold Engine.search
      rw [hidx]
    rw [hs] at h
    cases h
  | some idx =>
    rw [search_eq_fetchAll hidx] at h
    obtain ⟨hb, hrs⟩ := fetchAll_ok_elim h
    exact ⟨queryIds e.res idx q, sorted_lt_queryIds e.res idx q,
      nodup_queryIds e.res idx q, hb, hrs⟩

/-- Witness for C2 at a concrete engine and query. -/
theorem search_sorted_ascending_witness :
    EW.search "tax" = .ok [recA] ∧
      ∃ ids : List Nat, List.Sorted (· < ·) ids ∧ ids.Nodup ∧
        (∀ i ∈ ids, i < EW.data.length) ∧
        [recA] = ids.filterMap (fun i => EW.data.get? i) :=
  ⟨rfl, search_sorted_ascending EW "tax" [recA] rfl⟩

/-- C1 counterexample: the result set is NOT independent of the order of
the tokens in the query string.  The part-of-speech tagger tags the
whole query-token sequence and is context-sensitive (NLTK's averaged
perceptron tagger uses the neighbouring words as features), so
reordering the query tokens can change a token's tag, hence its primary
lemma, hence the normalized token set, hence the intersection.  With the
(order-sensitive, otherwise well-formed) tagger `Rcex` and the index
built from the corpus `[recX]`, the query `"a b"` returns the record
while its token-reordering `"b a"` returns nothing. -/
theorem search_order_dependent_cex :
    Ecex.search "a b" = .ok [recX] ∧ Ecex.search "b a" = .ok [] ∧
      Ecex.search "a b" ≠ Ecex.search "b a" :=
  ⟨rfl, rfl, fun h => List.cons_ne_nil recX [] (Except.ok.inj h)⟩

/-- C1 (amended): for every engine with an index present, (i) `search`
maps the identifier list `queryIds` to records; (ii) an identifier is in
`queryIds` iff the query normalizes to a nonempty token list all of
whose tokens have that identifier in their posting set (a token absent
from the index contributing the empty posting list) — i.e. the result
set is the intersection of the query tokens' posting sets; and (iii) the
result is independent of the order of the tokens in the query string
whenever the two orderings normalize to the same token set (which holds
when tags are assigned per token, but can fail for a context-sensitive
tagger — see the counterexample). -/
theorem search_eq_intersection_of_postings (e : Engine) (idx : Index)
    (q q2 : String) (hidx : e.inverted_index = some idx) :
    (e.search q = fetchAll e.data (queryIds e.res idx q)) ∧
      (∀ i, i ∈ queryIds e.res idx q ↔
        (preprocess e.res (some q) ≠ [] ∧
          ∀ t ∈ preprocess e.res (some q), i ∈ postings idx t)) ∧
      ((∀ t, t ∈ preprocess e.res (some q) ↔ t ∈ preprocess e.res (some q2)) →
        e.search q = e.search q2) := by
  refine ⟨search_eq_fetchAll hidx q, fun i => mem_queryIds, fun h => ?_⟩
  rw [search_eq_fetchAll hidx q, search_eq_fetchAll hidx q2, queryIds_ext h]

/-- Witness for the amended C1 at a concrete engine and query pair. -/
theorem search_eq_intersection_of_postings_witness :
    EW.inverted_index = some (buildIndexCore R0 [recA]) ∧
      EW.search "tax" =
        fetchAll EW.data (queryIds EW.res (buildIndexCore R0 [recA]) "tax") :=
  ⟨rfl, (search_eq_intersection_of_postings EW (buildIndexCore R0 [recA])
    "tax" "tax" rfl).1⟩

/-- C3 counterexample: `search` can raise even though an index is
present.  `Ebad` mimics `build()` having loaded the persisted index
`{"tax": [5]}` while the current corpus holds a single record: the
query `"tax"` reaches `self.data[5]`, which raises `IndexError`, so
"once an index is present, search never raises" is false as stated. -/
theorem search_raises_with_index_present_cex :
    Ebad.inverted_index ≠ none ∧ Ebad.search "tax" = .error .indexError :=
  ⟨by decide, rfl⟩

/-- C3 (amended): `search` fails with the "not ready" error iff it is
invoked with the index absent; with an index present, a query that
normalizes to no tokens returns the empty list (not an error), and
`search` returns a result (never raises) provided every identifier in
the index's posting lists is below the corpus length — which holds when
the index was built from the current corpus, but is not guaranteed for
an index loaded from storage (see the counterexample, where the
out-of-range mapping step raises an index error instead). -/
theorem search_notReady_iff (e : Engine) (q : String) :
    (e.search q = .error .notReady ↔ e.inverted_index = none) ∧
      (∀ idx, e.inverted_index = some idx → preprocess e.res (some q) = [] →
        e.search q = .ok []) ∧
      (∀ idx, e.inverted_index = some idx →
        (∀ t, ∀ i ∈ postings idx t, i < e.data.length) →
        ∃ rs, e.search q = .ok rs) := by
  refine ⟨?_, ?_, ?_⟩
  · cases hidx : e.inverted_index with
    | none =>
      have hs : e.search q = .error .notReady := by
        unfold Engine.search
        rw [hidx]
      simp [hs, hidx]
    | some idx =>
      constructor
      · intro h
        rw [search_eq_fetchAll hidx] at h
        cases fetchAll_error_elim h
      · intro h
        exact Option.noConfusion h
  · intro idx hidx hq
    rw [search_eq_fetchAll hidx, queryIds_nil_of_empty hq, fetchAll_nil]
  · intro idx hidx hb
    exact ⟨_, search_ok_of_bounded hidx hb q⟩

/-- Witness for the amended C3: a stop-word-only query on a built engine
returns the empty result list. -/
theorem search_notReady_iff_witness :
    (EW.inverted_index = some (buildIndexCore R0 [recA]) ∧
      preprocess EW.res (some "the") = []) ∧
      EW.search "the" = .ok [] :=
  ⟨⟨rfl, rfl⟩, (search_notReady_iff EW "the").2.1 _ rfl rfl⟩

/-- C6: `_build_index` is a pure function of the corpus sequence and the
linguistic resources: two engines with the same corpus and the same
Normalizer behavior build identical token→identifier mappings, the
serialized bytes of the built index coincide, and rebuilding is
idempotent (the second build replaces the index with an equal one). -/
theorem build_deterministic (e1 e2 : Engine)
    (hd : e1.data = e2.data) (hr : e1.res = e2.res) :
    e1.rebuild.inverted_index = e2.rebuild.inverted_index ∧
      serializeIndex (buildIndexCore e1.res e1.data) =
        serializeIndex (buildIndexCore e2.res e2.data) ∧
      e1.rebuild.rebuild = e1.rebuild := by
  refine ⟨?_, ?_, ?_⟩ <;> simp [Engine.rebuild, hd, hr]

/-- Witness for C6: two engines sharing a corpus (one Unbuilt, one
Built) rebuild to the same index. -/
theorem build_deterministic_witness :
    (EW.data = EU.data ∧ EW.res = EU.res) ∧
      EW.rebuild.inverted_index = EU.rebuild.inverted_index :=
  ⟨⟨rfl, rfl⟩, (build_deterministic EW EU rfl rfl).1⟩

/-- C7: round-trip persistence.  Saving the index (the JSON value
`json.dump` writes: an object mapping each token to its identifier
array) and loading it back yields the very same token→posting-list
mapping — in particular the same tokens, with posting lists equal (a
fortiori equal as sets per token). -/
theorem index_roundtrip (idx : Index) :
    decodeIndex (encodeIndex idx) = some idx := by
  have hd : ∀ i : Nat, decodeId (Json.num (Int.ofNat i)) = some i := by
    intro i
    have hnn : (0 : Int) ≤ Int.ofNat i := Int.ofNat_nonneg i
    show (if (0 : Int) ≤ Int.ofNat i then some (Int.ofNat i).toNat else none) =
      some i
    rw [if_pos hnn]
    rfl
  have h1 : ∀ ids : List Nat,
      decodeIds (ids.map (fun i => Json.num (Int.ofNat i))) = some ids := by
    intro ids
    induction ids with
    | nil => rfl
    | cons i is ih => simp only [List.map_cons, decodeIds, hd, ih]
  have h2 : ∀ entries : Index,
      decodeEntries (entries.map (fun p =>
        (p.1, Json.arr (p.2.map (fun i => Json.num (Int.ofNat i)))))) =
        some entries := by
    intro entries
    induction entries with
    | nil => rfl
    | cons p ps ih =>
      obtain ⟨k, ids⟩ := p
      simp only [List.map_cons, decodeEntries, h1, ih]
  exact h2 idx

/-- C8: `_preprocess` is total and never raises.  An absent, non-string,
or empty input yields the empty token set; no output token is a stop
word (stop words are stripped again after lemma accumulation); and a
run in which every tagger and lemmatizer call raises produces exactly
the output of the explicit raw-token fallbacks. -/
theorem preprocess_total_safe (R : Resources) :
    preprocess R none = [] ∧ preprocess R (some "") = [] ∧
      (∀ s t, t ∈ preprocess R s → R.stopWords.contains t = false) ∧
      (∀ s, preprocess (failAll R) s = preprocess (rawOnly R) s) :=
  ⟨rfl, rfl, fun _ _ h => (not_stop_of_mem_preprocess h).1,
    fun s => preprocess_failAll_eq R s⟩

/-- Witness for C8: a concrete non-stop-word token of the output is not
a stop word. -/
theorem preprocess_total_safe_witness :
    ("tax" ∈ preprocess R0 (some "the tax")) ∧
      R0.stopWords.contains "tax" = false :=
  ⟨by decide, (preprocess_total_safe R0).2.2.1 (some "the tax") "tax"
    (by decide)⟩

/-- C9: for every input token that survives the stop-word filter, the
output of `_preprocess` contains the raw token itself; if additionally
the token is longer than 4 characters and ends in `"ing"` (resp. longer
than 3 and ending in `"ed"`), the output also contains the token with
its last 3 (resp. 2) characters removed, unless that variant is itself a
stop word (the final stop-word strip).  The tagger is only assumed to
return the input tokens, each paired with some tag (NLTK's contract). -/
theorem preprocess_contains_raw_and_stems (R : Resources)
    (hwf : ∀ ts ps, R.posTag ts = some ps → ps.map Prod.fst = ts)
    (s token : String) (htok : token ∈ filteredTokens R s) :
    token ∈ preprocess R (some s) ∧
      (pyEndsWith token "ing" = true → pyLen token > 4 →
        R.stopWords.contains (pyDrop token 3) = false →
        pyDrop token 3 ∈ preprocess R (some s)) ∧
      (pyEndsWith token "ed" = true → pyLen token > 3 →
        R.stopWords.contains (pyDrop token 2) = false →
        pyDrop token 2 ∈ preprocess R (some s)) := by
  obtain ⟨htk, hnstop⟩ := mem_tokenize_of_mem_filteredTokens htok
  refine ⟨?_, ?_, ?_⟩
  · exact mem_preprocess_via_pair hwf htok
      (fun acc p hp => hp ▸ token_mem_lemmasFor R acc p)
      (ne_empty_of_mem_tokenize htk) hnstop
  · intro h1 h2 h3
    refine mem_preprocess_via_pair hwf htok (fun acc p hp => ?_)
      (pyDrop_ne_empty (by unfold pyLen at h2 ⊢; omega)) h3
    have hv := ing_mem_lemmasFor R acc p (by rw [hp]; exact h1)
      (by rw [hp]; exact h2)
    rwa [hp] at hv
  · intro h1 h2 h3
    refine mem_preprocess_via_pair hwf htok (fun acc p hp => ?_)
      (pyDrop_ne_empty (by unfold pyLen at h2 ⊢; omega)) h3
    have hv := ed_mem_lemmasFor R acc p (by rw [hp]; exact h1)
      (by rw [hp]; exact h2)
    rwa [hp] at hv

/-- Witness for C9: `"combing"` survives the stop-word filter of a
concrete query; the output contains the raw token and its stemmed
variant `"comb"`. -/
theorem preprocess_contains_raw_and_stems_witness :
    ("combing" ∈ filteredTokens R0 "studied combing") ∧
      "combing" ∈ preprocess R0 (some "studied combing") ∧
      "comb" ∈ preprocess R0 (some "studied combing") := by
  refine ⟨by decide, ?_, ?_⟩
  · exact (preprocess_contains_raw_and_stems R0 R0_posTag_wf
      "studied combing" "combing" (by decide)).1
  · have hv := (preprocess_contains_raw_and_stems R0 R0_posTag_wf
      "studied combing" "combing" (by decide)).2.1 (by decide) (by decide)
      (by decide)
    exact (by decide : pyDrop "combing" 3 = "comb") ▸ hv
